import Mathlib

/-!
Verification development for the TameioJoin cash-drawer reconciliation
script (`src/script.js`).  Monetary values are modelled as exact rationals
(`ℚ`); JavaScript `Math.round` is `round` (half towards `+∞`),
`Math.floor` is `Int.floor`, and `Math.round(x * 100) / 100` (the
two-decimal re-rounding used throughout the script) is `round2`.
-/

namespace TameioJoin

/-- Embedding of `Math.round(q * 100) / 100`: round a rational to two decimals, halves
towards `+∞`, exactly as JavaScript `Math.round` and `toFixed(2)` behave
on exact values. -/
def round2 (q : ℚ) : ℚ := (round (q * 100) : ℤ) / 100

/-- A rational that is a whole number of cents. -/
def isCents (q : ℚ) : Prop := ∃ n : ℤ, q = (n : ℚ) / 100

/-- The field identifiers of `script.js`: five bills, six coins and the
five non-denominated channels. -/
inductive FieldId where
  | bill100 | bill50 | bill20 | bill10 | bill5
  | coin2 | coin1 | coin05 | coin02 | coin01 | coin005
  | kermata | wolt | efood | mypos | eurobank
deriving DecidableEq, Repr

/-- The `denominationValues` map of `script.js`: face value for the
denomination fields, `none` for the "other" fields. -/
def denominationValue : FieldId → Option ℚ
  | .bill100 => some 100
  | .bill50 => some 50
  | .bill20 => some 20
  | .bill10 => some 10
  | .bill5 => some 5
  | .coin2 => some 2
  | .coin1 => some 1
  | .coin05 => some (1/2)
  | .coin02 => some (1/5)
  | .coin01 => some (1/10)
  | .coin005 => some (1/20)
  | _ => none

/-- The `billDenominations` array of `calculateFakelos`. -/
def billDenominations : List ℚ := [100, 50, 20, 10, 5]

/-- The `coinDenominations` array of `calculateFakelos`. -/
def coinDenominations : List ℚ := [2, 1, 1/2, 1/5, 1/10, 1/20]

/-- The bill loop of `calculateFakelos` (lines 588-602): for each bill
face value, if the remainder is still positive take
`min ⌊remaining / denom⌋ available` pieces, subtract their value and
re-round the remainder to two decimals; `break` once the remainder is
non-positive.  Returns the recorded `usedBills` entries (only strictly
positive uses are recorded) together with the final remainder. -/
def billLoop (counts : ℚ → ℤ) : List ℚ → ℚ → List (ℚ × ℤ) × ℚ
  | [], remaining => ([], remaining)
  | denom :: rest, remaining =>
    if remaining ≤ 0 then ([], remaining)
    else
      let needed : ℤ := ⌊remaining / denom⌋
      let used : ℤ := min needed (counts denom)
      if 0 < used then
        let out := billLoop counts rest (round2 (remaining - (used : ℚ) * denom))
        ((denom, used) :: out.1, out.2)
      else
        billLoop counts rest remaining

/-- The coin loop of `calculateFakelos` (lines 605-620): identical to the
bill loop except that `needed = ⌊(remaining + 0.001) / denom⌋`, the
epsilon compensating for floating point representation of sub-unit
coins. -/
def coinLoop (counts : ℚ → ℤ) : List ℚ → ℚ → List (ℚ × ℤ) × ℚ
  | [], remaining => ([], remaining)
  | denom :: rest, remaining =>
    if remaining ≤ 0 then ([], remaining)
    else
      let needed : ℤ := ⌊(remaining + 1/1000) / denom⌋
      let used : ℤ := min needed (counts denom)
      if 0 < used then
        let out := coinLoop counts rest (round2 (remaining - (used : ℚ) * denom))
        ((denom, used) :: out.1, out.2)
      else
        coinLoop counts rest remaining

/-- Result of the greedy allocation in `calculateFakelos`. -/
structure FakelosResult where
  usedBills : List (ℚ × ℤ)
  usedCoins : List (ℚ × ℤ)
  remaining : ℚ
deriving DecidableEq, Repr

/-- The allocation part of `calculateFakelos` (lines 579-620): round the
cash total to two decimals, run the bill loop over `[100,50,20,10,5]`,
then the coin loop over `[2,1,0.5,0.2,0.1,0.05]` on the remainder.
`counts` gives the available count per face value (the script builds
`billCounts`/`coinCounts` keyed by face value from the same inputs). -/
def calculateFakelos (cashTotal : ℚ) (counts : ℚ → ℤ) : FakelosResult :=
  let remaining0 := round2 cashTotal
  let bills := billLoop counts billDenominations remaining0
  let coins := coinLoop counts coinDenominations bills.2
  ⟨bills.1, coins.1, coins.2⟩

/-- The uncovered amount reported by `calculateFakelos` (line 686): the
final remainder is shown as missing only when it exceeds `0.001`. -/
def remainingUncovered (r : ℚ) : ℚ := if 1/1000 < r then r else 0

/-- Lookup of a used-entry map (`usedBills[denom] || 0`). -/
def lookupUsed (used : List (ℚ × ℤ)) (d : ℚ) : ℤ :=
  match used.find? (fun p => p.1 = d) with
  | some p => p.2
  | none => 0

/-- The leftover count shown in the ΜΕΝΟΥΝ section (lines 666 and 671):
`Math.max(0, (counts[denom] || 0) - (used[denom] || 0))`. -/
def leftoverCount (counts : ℚ → ℤ) (used : List (ℚ × ℤ)) (d : ℚ) : ℤ :=
  max 0 (counts d - lookupUsed used d)

/-- The combined used-entry map of one `calculateFakelos` run, bills before
coins. -/
def allocUsed (t : ℚ) (counts : ℚ → ℤ) : List (ℚ × ℤ) :=
  (calculateFakelos t counts).usedBills ++ (calculateFakelos t counts).usedCoins

/-- Total monetary value of a used-entry map. -/
def usedSum (l : List (ℚ × ℤ)) : ℚ := (l.map (fun p => (p.2 : ℚ) * p.1)).sum

lemma isCents_round2 (q : ℚ) : isCents (round2 q) := ⟨round (q * 100), rfl⟩

lemma round2_eq_self {q : ℚ} (h : isCents q) : round2 q = q := by
  obtain ⟨n, rfl⟩ := h
  have h100 : ((n : ℚ) / 100) * 100 = (n : ℚ) := by field_simp
  rw [round2, h100, round_intCast]

lemma isCents_sub {a b : ℚ} (ha : isCents a) (hb : isCents b) : isCents (a - b) := by
  obtain ⟨m, rfl⟩ := ha
  obtain ⟨n, rfl⟩ := hb
  exact ⟨m - n, by push_cast; ring⟩

lemma round2_nonpos {q : ℚ} (h : q ≤ 0) : round2 q ≤ 0 := by
  have h1 : round (q * 100) ≤ 0 := by
    rw [round_eq]
    have h2 : q * 100 + 1/2 < 1 := by nlinarith
    have h3 : ⌊q * 100 + 1/2⌋ < (1 : ℤ) := Int.floor_lt.mpr (by exact_mod_cast h2)
    omega
  rw [round2]
  have h4 : ((round (q * 100) : ℤ) : ℚ) ≤ 0 := by exact_mod_cast h1
  linarith

lemma usedSum_nil : usedSum [] = 0 := rfl

lemma usedSum_cons (p : ℚ × ℤ) (l : List (ℚ × ℤ)) :
    usedSum (p :: l) = (p.2 : ℚ) * p.1 + usedSum l := by
  simp [usedSum]

lemma usedSum_append (l₁ l₂ : List (ℚ × ℤ)) :
    usedSum (l₁ ++ l₂) = usedSum l₁ + usedSum l₂ := by
  simp [usedSum]

lemma billLoop_mem {counts : ℚ → ℤ} :
    ∀ {ds : List ℚ} {r : ℚ} {p : ℚ × ℤ}, p ∈ (billLoop counts ds r).1 →
      p.1 ∈ ds ∧ 0 < p.2 ∧ p.2 ≤ counts p.1 := by
  intro ds
  induction ds with
  | nil => intro r p hp; simp [billLoop] at hp
  | cons d rest ih =>
    intro r p hp
    simp only [billLoop] at hp
    split_ifs at hp with h1 h2
    · simp at hp
    · rcases List.mem_cons.mp hp with h | h
      · subst h
        exact ⟨List.mem_cons_self d rest, h2, min_le_right _ _⟩
      · obtain ⟨h3, h4, h5⟩ := ih h
        exact ⟨List.mem_cons_of_mem d h3, h4, h5⟩
    · obtain ⟨h3, h4, h5⟩ := ih hp
      exact ⟨List.mem_cons_of_mem d h3, h4, h5⟩

lemma coinLoop_mem {counts : ℚ → ℤ} :
    ∀ {ds : List ℚ} {r : ℚ} {p : ℚ × ℤ}, p ∈ (coinLoop counts ds r).1 →
      p.1 ∈ ds ∧ 0 < p.2 ∧ p.2 ≤ counts p.1 := by
  intro ds
  induction ds with
  | nil => intro r p hp; simp [coinLoop] at hp
  | cons d rest ih =>
    intro r p hp
    simp only [coinLoop] at hp
    split_ifs at hp with h1 h2
    · simp at hp
    · rcases List.mem_cons.mp hp with h | h
      · subst h
        exact ⟨List.mem_cons_self d rest, h2, min_le_right _ _⟩
      · obtain ⟨h3, h4, h5⟩ := ih h
        exact ⟨List.mem_cons_of_mem d h3, h4, h5⟩
    · obtain ⟨h3, h4, h5⟩ := ih hp
      exact ⟨List.mem_cons_of_mem d h3, h4, h5⟩

lemma allocUsed_mem {t : ℚ} {counts : ℚ → ℤ} {p : ℚ × ℤ}
    (hp : p ∈ allocUsed t counts) : 0 < p.2 ∧ p.2 ≤ counts p.1 := by
  unfold allocUsed calculateFakelos at hp
  rcases List.mem_append.mp hp with h | h
  · exact ⟨(billLoop_mem h).2.1, (billLoop_mem h).2.2⟩
  · exact ⟨(coinLoop_mem h).2.1, (coinLoop_mem h).2.2⟩

lemma lookupUsed_le_of {l : List (ℚ × ℤ)} {counts : ℚ → ℤ} {d : ℚ}
    (h0 : 0 ≤ counts d) (h : ∀ p ∈ l, p.2 ≤ counts p.1) :
    lookupUsed l d ≤ counts d := by
  unfold lookupUsed
  cases hf : l.find? (fun p => p.1 = d) with
  | none => simpa using h0
  | some p =>
    have hm := List.mem_of_find?_eq_some hf
    have hd : p.1 = d := by simpa using List.find?_some hf
    simpa [hd] using h p hm

lemma lookupUsed_nonneg {l : List (ℚ × ℤ)} {d : ℚ}
    (h : ∀ p ∈ l, 0 < p.2) : 0 ≤ lookupUsed l d := by
  unfold lookupUsed
  cases hf : l.find? (fun p => p.1 = d) with
  | none => simp
  | some p => exact (h p (List.mem_of_find?_eq_some hf)).le

/-- Each face value of the script is a positive multiple of `1/20` (a
twentieth of a euro, the smallest coin). -/
def isTwentieth (d : ℚ) : Prop := ∃ k : ℤ, 0 < k ∧ d = (k : ℚ) / 20

lemma billDenominations_isTwentieth : ∀ d ∈ billDenominations, isTwentieth d := by
  intro d hd
  fin_cases hd
  exacts [⟨2000, by norm_num⟩, ⟨1000, by norm_num⟩, ⟨400, by norm_num⟩,
    ⟨200, by norm_num⟩, ⟨100, by norm_num⟩]

lemma coinDenominations_isTwentieth : ∀ d ∈ coinDenominations, isTwentieth d := by
  intro d hd
  fin_cases hd
  exacts [⟨40, by norm_num⟩, ⟨20, by norm_num⟩, ⟨10, by norm_num⟩,
    ⟨4, by norm_num⟩, ⟨2, by norm_num⟩, ⟨1, by norm_num⟩]

lemma billLoop_conserve {counts : ℚ → ℤ} :
    ∀ {ds : List ℚ} {r : ℚ}, (∀ d ∈ ds, isTwentieth d) → isCents r → 0 ≤ r →
      usedSum (billLoop counts ds r).1 + (billLoop counts ds r).2 = r
        ∧ 0 ≤ (billLoop counts ds r).2 ∧ isCents (billLoop counts ds r).2 := by
  intro ds
  induction ds with
  | nil => intro r _ hc hr; exact ⟨by simp [billLoop, usedSum], hr, hc⟩
  | cons d rest ih =>
    intro r hds hc hr
    obtain ⟨k, hk, hdk⟩ := hds d (List.mem_cons_self d rest)
    have hkq : (0 : ℚ) < (k : ℚ) := by exact_mod_cast hk
    have hdpos : 0 < d := by rw [hdk]; positivity
    simp only [billLoop]
    split_ifs with h1 h2
    · exact ⟨by simp [usedSum], hr, hc⟩
    · have husedle : ((min ⌊r / d⌋ (counts d) : ℤ) : ℚ) * d ≤ r := by
        have h3 : ((min ⌊r / d⌋ (counts d) : ℤ) : ℚ) ≤ r / d := by
          have h4 : min ⌊r / d⌋ (counts d) ≤ ⌊r / d⌋ := min_le_left _ _
          calc ((min ⌊r / d⌋ (counts d) : ℤ) : ℚ) ≤ (⌊r / d⌋ : ℚ) := by exact_mod_cast h4
            _ ≤ r / d := Int.floor_le _
        calc ((min ⌊r / d⌋ (counts d) : ℤ) : ℚ) * d ≤ (r / d) * d :=
              mul_le_mul_of_nonneg_right h3 hdpos.le
          _ = r := div_mul_cancel₀ r hdpos.ne'
      have hcents : isCents (((min ⌊r / d⌋ (counts d) : ℤ) : ℚ) * d) := by
        refine ⟨min ⌊r / d⌋ (counts d) * k * 5, ?_⟩
        rw [hdk]; push_cast; ring
      have hcsub : isCents (r - ((min ⌊r / d⌋ (counts d) : ℤ) : ℚ) * d) :=
        isCents_sub hc hcents
      have hr2 : round2 (r - ((min ⌊r / d⌋ (counts d) : ℤ) : ℚ) * d)
          = r - ((min ⌊r / d⌋ (counts d) : ℤ) : ℚ) * d := round2_eq_self hcsub
      rw [hr2]
      obtain ⟨ih1, ih2, ih3⟩ := ih (fun x hx => hds x (List.mem_cons_of_mem d hx))
        hcsub (by linarith)
      refine ⟨?_, ih2, ih3⟩
      rw [usedSum_cons]
      dsimp only
      linarith
    · exact ih (fun x hx => hds x (List.mem_cons_of_mem d hx)) hc hr

lemma coinLoop_conserve {counts : ℚ → ℤ} :
    ∀ {ds : List ℚ} {r : ℚ}, (∀ d ∈ ds, isTwentieth d) → isCents r → 0 ≤ r →
      usedSum (coinLoop counts ds r).1 + (coinLoop counts ds r).2 = r
        ∧ 0 ≤ (coinLoop counts ds r).2 ∧ isCents (coinLoop counts ds r).2 := by
  intro ds
  induction ds with
  | nil => intro r _ hc hr; exact ⟨by simp [coinLoop, usedSum], hr, hc⟩
  | cons d rest ih =>
    intro r hds hc hr
    obtain ⟨k, hk, hdk⟩ := hds d (List.mem_cons_self d rest)
    have hkq : (0 : ℚ) < (k : ℚ) := by exact_mod_cast hk
    have hdpos : 0 < d := by rw [hdk]; positivity
    simp only [coinLoop]
    split_ifs with h1 h2
    · exact ⟨by simp [usedSum], hr, hc⟩
    · obtain ⟨n, hn⟩ := hc
      set u : ℤ := min ⌊(r + 1/1000) / d⌋ (counts d) with hu
      have hmd : ((u : ℤ) : ℚ) * d = ((u * k * 5 : ℤ) : ℚ) / 100 := by
        rw [hdk]; push_cast; ring
      have husedle : ((u : ℤ) : ℚ) * d ≤ r := by
        have h3 : ((u : ℤ) : ℚ) ≤ (r + 1/1000) / d := by
          have h4 : u ≤ ⌊(r + 1/1000) / d⌋ := min_le_left _ _
          calc ((u : ℤ) : ℚ) ≤ (⌊(r + 1/1000) / d⌋ : ℚ) := by exact_mod_cast h4
            _ ≤ (r + 1/1000) / d := Int.floor_le _
        have h5 : ((u : ℤ) : ℚ) * d ≤ r + 1/1000 := by
          calc ((u : ℤ) : ℚ) * d ≤ ((r + 1/1000) / d) * d :=
                mul_le_mul_of_nonneg_right h3 hdpos.le
            _ = r + 1/1000 := div_mul_cancel₀ _ hdpos.ne'
        rw [hmd, hn] at h5
        have h6 : ((10 * (u * k * 5) : ℤ) : ℚ) ≤ ((10 * n + 1 : ℤ) : ℚ) := by
          push_cast
          push_cast at h5
          linarith
        have h7 : (10 * (u * k * 5) : ℤ) ≤ 10 * n + 1 := by exact_mod_cast h6
        have h8 : (u * k * 5 : ℤ) ≤ n := by omega
        rw [hmd, hn]
        have h9 : ((u * k * 5 : ℤ) : ℚ) ≤ (n : ℚ) := by exact_mod_cast h8
        linarith
      have hcents : isCents (((u : ℤ) : ℚ) * d) := ⟨u * k * 5, hmd⟩
      have hcsub : isCents (r - ((u : ℤ) : ℚ) * d) := isCents_sub ⟨n, hn⟩ hcents
      have hr2 : round2 (r - ((u : ℤ) : ℚ) * d) = r - ((u : ℤ) : ℚ) * d :=
        round2_eq_self hcsub
      rw [hr2]
      obtain ⟨ih1, ih2, ih3⟩ := ih (fun x hx => hds x (List.mem_cons_of_mem d hx))
        hcsub (by linarith)
      refine ⟨?_, ih2, ih3⟩
      rw [usedSum_cons]
      dsimp only
      linarith
    · exact ih (fun x hx => hds x (List.mem_cons_of_mem d hx)) hc hr

/-- C4: for every target amount and every map of non-negative available
counts, the allocation of `calculateFakelos` never uses more of any
denomination than is available, and for every denomination `d` the used
count plus the leftover count (as computed for the ΜΕΝΟΥΝ section) equals
the available count, the leftover never being negative. -/
theorem calculateFakelos_respects_availability (t : ℚ) (counts : ℚ → ℤ)
    (hc : ∀ d, 0 ≤ counts d) (d : ℚ) :
    lookupUsed (allocUsed t counts) d ≤ counts d
      ∧ lookupUsed (allocUsed t counts) d + leftoverCount counts (allocUsed t counts) d
          = counts d
      ∧ 0 ≤ leftoverCount counts (allocUsed t counts) d := by
  have hle : lookupUsed (allocUsed t counts) d ≤ counts d :=
    lookupUsed_le_of (hc d) (fun p hp => (allocUsed_mem hp).2)
  have hnn : 0 ≤ lookupUsed (allocUsed t counts) d :=
    lookupUsed_nonneg (fun p hp => (allocUsed_mem hp).1)
  refine ⟨hle, ?_, le_max_left _ _⟩
  unfold leftoverCount
  rw [max_eq_right (by omega)]
  omega

/-- Witness for C4 at target 17 with one of every denomination available. -/
theorem calculateFakelos_respects_availability_witness :
    lookupUsed (allocUsed 17 (fun _ => 1)) 100 ≤ 1
      ∧ lookupUsed (allocUsed 17 (fun _ => 1)) 100
          + leftoverCount (fun _ => 1) (allocUsed 17 (fun _ => 1)) 100 = 1
      ∧ 0 ≤ leftoverCount (fun _ => 1) (allocUsed 17 (fun _ => 1)) 100 :=
  calculateFakelos_respects_availability 17 (fun _ => 1) (fun _ => zero_le_one) 100

/-- C7: a zero or negative target is not an error: the allocation returns
empty used maps and reports an uncovered remainder of 0. -/
theorem calculateFakelos_nonpositive_target (t : ℚ) (counts : ℚ → ℤ) (ht : t ≤ 0) :
    (calculateFakelos t counts).usedBills = []
      ∧ (calculateFakelos t counts).usedCoins = []
      ∧ remainingUncovered (calculateFakelos t counts).remaining = 0 := by
  have hr : round2 t ≤ 0 := round2_nonpos ht
  have hb : billLoop counts billDenominations (round2 t) = ([], round2 t) := by
    simp only [billDenominations, billLoop]
    rw [if_pos hr]
  have hcn : coinLoop counts coinDenominations (round2 t) = ([], round2 t) := by
    simp only [coinDenominations, coinLoop]
    rw [if_pos hr]
  have hres : calculateFakelos t counts = ⟨[], [], round2 t⟩ := by
    simp only [calculateFakelos, hb, hcn]
  rw [hres]
  refine ⟨rfl, rfl, ?_⟩
  unfold remainingUncovered
  rw [if_neg (by linarith)]

/-- Witness for C7 at target 0. -/
theorem calculateFakelos_nonpositive_target_witness :
    (calculateFakelos 0 (fun _ => 3)).usedBills = []
      ∧ (calculateFakelos 0 (fun _ => 3)).usedCoins = []
      ∧ remainingUncovered (calculateFakelos 0 (fun _ => 3)).remaining = 0 :=
  calculateFakelos_nonpositive_target 0 (fun _ => 3) (le_refl 0)

/-- C10: conservation of the allocated amount: when the rounded target is
positive and the available counts are non-negative, the total value of
all used entries plus the final remainder equals the rounded target, and
the remainder never goes negative. -/
theorem calculateFakelos_conservation (t : ℚ) (counts : ℚ → ℤ)
    (_hcounts : ∀ d, 0 ≤ counts d) (hpos : 0 < round2 t) :
    usedSum (allocUsed t counts) + (calculateFakelos t counts).remaining = round2 t
      ∧ 0 ≤ (calculateFakelos t counts).remaining := by
  obtain ⟨hb1, hb2, hb3⟩ := @billLoop_conserve counts billDenominations (round2 t)
    billDenominations_isTwentieth (isCents_round2 t) hpos.le
  obtain ⟨hc1, hc2, hc3⟩ := @coinLoop_conserve counts coinDenominations
    (billLoop counts billDenominations (round2 t)).2
    coinDenominations_isTwentieth hb3 hb2
  constructor
  · unfold allocUsed calculateFakelos
    rw [usedSum_append]
    dsimp only
    linarith
  · exact hc2

/-- Witness for C10 at target 1 with one of every denomination. -/
theorem calculateFakelos_conservation_witness :
    usedSum (allocUsed 1 (fun _ => 1)) + (calculateFakelos 1 (fun _ => 1)).remaining
        = round2 1
      ∧ 0 ≤ (calculateFakelos 1 (fun _ => 1)).remaining :=
  calculateFakelos_conservation 1 (fun _ => 1) (fun _ => zero_le_one)
    (by rw [round2_eq_self ⟨100, by norm_num⟩]; norm_num)

/-- The available counts of the C8 test scenario: five 2€ coins, five 1€
coins, two 0.50€ coins, one 0.20€ coin and nothing else. -/
def scenarioCounts : ℚ → ℤ := fun d =>
  if d = 2 then 5 else if d = 1 then 5 else if d = 1/2 then 2
  else if d = 1/5 then 1 else 0

set_option maxHeartbeats 1600000 in
/-- C8: for target 17.35 with the scenario coin stock, the engine uses no
bills, then 5×2€, 5×1€, 2×0.50€ (totalling 16.00 and leaving 1.35), then
one 0.20€ coin (needed would be `⌊(1.35 + 0.001)/0.2⌋ = 6` but only 1 is
available), ending with an uncovered remainder of 1.15. -/
theorem calculateFakelos_scenario :
    calculateFakelos (1735/100) scenarioCounts
        = ⟨[], [(2, 5), (1, 5), (1/2, 2), (1/5, 1)], 23/20⟩
      ∧ usedSum [((2 : ℚ), (5 : ℤ)), (1, 5), (1/2, 2)] = 16
      ∧ round2 (1735/100) - usedSum [((2 : ℚ), (5 : ℤ)), (1, 5), (1/2, 2)] = 27/20
      ∧ ⌊((27/20 : ℚ) + 1/1000) / (1/5)⌋ = 6
      ∧ remainingUncovered (calculateFakelos (1735/100) scenarioCounts).remaining
          = 23/20 := by
  refine ⟨?_, by norm_num [usedSum], ?_, by norm_num, ?_⟩
  · norm_num [calculateFakelos, billLoop, coinLoop, round2, billDenominations,
      coinDenominations, scenarioCounts, round_eq]
  · norm_num [usedSum, round2, round_eq]
  · norm_num [calculateFakelos, billLoop, coinLoop, round2, billDenominations,
      coinDenominations, scenarioCounts, round_eq, remainingUncovered]

/-- Category tag of a denomination: bill or coin. -/
inductive DenomKind where
  | bill
  | coin
deriving DecidableEq, Repr

/-- Modelled from the spec wording of C1: the fixed descending priority
order, bills `100,50,20,10,5` before coins `2,1,0.5,0.2,0.1,0.05`. -/
def priorityOrder : List (ℚ × DenomKind) :=
  [(100, .bill), (50, .bill), (20, .bill), (10, .bill), (5, .bill),
   (2, .coin), (1, .coin), (1/2, .coin), (1/5, .coin), (1/10, .coin), (1/20, .coin)]

/-- Modelled from the spec wording of C1: at each denomination `d` with
remaining amount `r > 0`, `needed = ⌊r / d⌋` for bills and
`⌊(r + 0.001) / d⌋` for coins, `used = min needed available`; when
`used > 0` record it, subtract `used * d` and re-round to 2 decimals;
once `r ≤ 0` every later denomination is skipped. -/
def specStep (avail : ℚ → ℤ) (st : List (ℚ × ℤ) × ℚ) (dk : ℚ × DenomKind) :
    List (ℚ × ℤ) × ℚ :=
  if st.2 ≤ 0 then st
  else
    let needed : ℤ :=
      match dk.2 with
      | .bill => ⌊st.2 / dk.1⌋
      | .coin => ⌊(st.2 + 1/1000) / dk.1⌋
    let used : ℤ := min needed (avail dk.1)
    if 0 < used then (st.1 ++ [(dk.1, used)], round2 (st.2 - (used : ℚ) * dk.1))
    else st

/-- Modelled from the spec wording of C1: the greedy allocation as one
fold over the priority order, starting from the target rounded to two
decimals. -/
def specAllocate (target : ℚ) (avail : ℚ → ℤ) : List (ℚ × ℤ) × ℚ :=
  priorityOrder.foldl (specStep avail) ([], round2 target)

lemma specStep_foldl_stopped {avail : ℚ → ℤ} {acc : List (ℚ × ℤ)} {r : ℚ}
    (h : r ≤ 0) : ∀ l : List (ℚ × DenomKind),
      List.foldl (specStep avail) (acc, r) l = (acc, r) := by
  intro l
  induction l with
  | nil => rfl
  | cons dk rest ih =>
    rw [List.foldl_cons]
    have hstep : specStep avail (acc, r) dk = (acc, r) := by
      unfold specStep
      rw [if_pos h]
    rw [hstep, ih]

lemma specStep_foldl_bills (avail : ℚ → ℤ) :
    ∀ (ds : List ℚ) (acc : List (ℚ × ℤ)) (r : ℚ),
      List.foldl (specStep avail) (acc, r) (ds.map (fun d => (d, DenomKind.bill)))
        = (acc ++ (billLoop avail ds r).1, (billLoop avail ds r).2) := by
  intro ds
  induction ds with
  | nil => intro acc r; simp [billLoop]
  | cons d rest ih =>
    intro acc r
    simp only [List.map_cons, List.foldl_cons]
    by_cases h1 : r ≤ 0
    · rw [show specStep avail (acc, r) (d, DenomKind.bill) = (acc, r) by
        unfold specStep; rw [if_pos h1]]
      rw [specStep_foldl_stopped h1]
      simp [billLoop, h1]
    · simp only [specStep, billLoop]
      rw [if_neg h1, if_neg h1]
      by_cases h2 : 0 < min ⌊r / d⌋ (avail d)
      · rw [if_pos h2, if_pos h2, ih]
        simp
      · rw [if_neg h2, if_neg h2, ih]

lemma specStep_foldl_coins (avail : ℚ → ℤ) :
    ∀ (ds : List ℚ) (acc : List (ℚ × ℤ)) (r : ℚ),
      List.foldl (specStep avail) (acc, r) (ds.map (fun d => (d, DenomKind.coin)))
        = (acc ++ (coinLoop avail ds r).1, (coinLoop avail ds r).2) := by
  intro ds
  induction ds with
  | nil => intro acc r; simp [coinLoop]
  | cons d rest ih =>
    intro acc r
    simp only [List.map_cons, List.foldl_cons]
    by_cases h1 : r ≤ 0
    · rw [show specStep avail (acc, r) (d, DenomKind.coin) = (acc, r) by
        unfold specStep; rw [if_pos h1]]
      rw [specStep_foldl_stopped h1]
      simp [coinLoop, h1]
    · simp only [specStep, coinLoop]
      rw [if_neg h1, if_neg h1]
      by_cases h2 : 0 < min ⌊(r + 1/1000) / d⌋ (avail d)
      · rw [if_pos h2, if_pos h2, ih]
        simp
      · rw [if_neg h2, if_neg h2, ih]

lemma priorityOrder_eq :
    priorityOrder = billDenominations.map (fun d => (d, DenomKind.bill))
      ++ coinDenominations.map (fun d => (d, DenomKind.coin)) := rfl

/-- C1: the allocation of `calculateFakelos` is exactly the greedy
algorithm described by the spec: bills `100,50,20,10,5` then coins
`2,1,0.5,0.2,0.1,0.05`, at each step `needed = ⌊r/d⌋` for bills and
`⌊(r + 0.001)/d⌋` for coins, `used = min needed available`, recording
only positive uses, subtracting `used * d`, re-rounding to two decimals,
and stopping once `r ≤ 0`. -/
theorem calculateFakelos_follows_spec (t : ℚ) (counts : ℚ → ℤ) :
    (specAllocate t counts).1
        = (calculateFakelos t counts).usedBills ++ (calculateFakelos t counts).usedCoins
      ∧ (specAllocate t counts).2 = (calculateFakelos t counts).remaining := by
  unfold specAllocate
  rw [priorityOrder_eq, List.foldl_append, specStep_foldl_bills,
    specStep_foldl_coins]
  unfold calculateFakelos
  constructor <;> simp

/-- The bill loop of `showStelno` (lines 499-508): same greedy step as in
`calculateFakelos`, reading `billCounts[denom] || 0`. -/
def stelnoBillLoop (counts : ℚ → ℤ) : List ℚ → ℚ → List (ℚ × ℤ) × ℚ
  | [], remaining => ([], remaining)
  | denom :: rest, remaining =>
    if remaining ≤ 0 then ([], remaining)
    else
      let needed : ℤ := ⌊remaining / denom⌋
      let used : ℤ := min needed (counts denom)
      if 0 < used then
        let out := stelnoBillLoop counts rest (round2 (remaining - (used : ℚ) * denom))
        ((denom, used) :: out.1, out.2)
      else
        stelnoBillLoop counts rest remaining

/-- The coin loop of `showStelno` (lines 510-520): same epsilon-adjusted
greedy step as in `calculateFakelos`. -/
def stelnoCoinLoop (counts : ℚ → ℤ) : List ℚ → ℚ → List (ℚ × ℤ) × ℚ
  | [], remaining => ([], remaining)
  | denom :: rest, remaining =>
    if remaining ≤ 0 then ([], remaining)
    else
      let needed : ℤ := ⌊(remaining + 1/1000) / denom⌋
      let used : ℤ := min needed (counts denom)
      if 0 < used then
        let out := stelnoCoinLoop counts rest (round2 (remaining - (used : ℚ) * denom))
        ((denom, used) :: out.1, out.2)
      else
        stelnoCoinLoop counts rest remaining

/-- Result of the allocation run inside `showStelno`. -/
structure StelnoResult where
  usedBills : List (ℚ × ℤ)
  usedCoins : List (ℚ × ℤ)
  remaining : ℚ
deriving DecidableEq, Repr

/-- The allocation part of `showStelno` (lines 494-520): the cash total
rounded to two decimals, the bill loop, then the coin loop. -/
def showStelno (cashTotal : ℚ) (counts : ℚ → ℤ) : StelnoResult :=
  let remaining0 := round2 cashTotal
  let bills := stelnoBillLoop counts billDenominations remaining0
  let coins := stelnoCoinLoop counts coinDenominations bills.2
  ⟨bills.1, coins.1, coins.2⟩

/-- The leftover count shown in the Στέλνω popup (lines 532 and 539):
`Math.max(0, (counts[denom] || 0) - (used[denom] || 0))`. -/
def stelnoLeftoverCount (counts : ℚ → ℤ) (used : List (ℚ × ℤ)) (d : ℚ) : ℤ :=
  max 0 (counts d - lookupUsed used d)

lemma stelnoBillLoop_eq_billLoop (counts : ℚ → ℤ) :
    ∀ (ds : List ℚ) (r : ℚ), stelnoBillLoop counts ds r = billLoop counts ds r := by
  intro ds
  induction ds with
  | nil => intro r; rfl
  | cons d rest ih =>
    intro r
    simp only [stelnoBillLoop, billLoop, ih]

lemma stelnoCoinLoop_eq_coinLoop (counts : ℚ → ℤ) :
    ∀ (ds : List ℚ) (r : ℚ), stelnoCoinLoop counts ds r = coinLoop counts ds r := by
  intro ds
  induction ds with
  | nil => intro r; rfl
  | cons d rest ih =>
    intro r
    simp only [stelnoCoinLoop, coinLoop, ih]

/-- C6: given the same cash total and the same available counts, the
allocation computed for the Στέλνω summary view (`showStelno`) and the
one computed for the ΦΑΚΕΛΟΣ breakdown view (`calculateFakelos`) agree on
the used bills, the used coins, the final remainder, and every leftover
count. -/
theorem showStelno_eq_calculateFakelos (t : ℚ) (counts : ℚ → ℤ) :
    (showStelno t counts).usedBills = (calculateFakelos t counts).usedBills
      ∧ (showStelno t counts).usedCoins = (calculateFakelos t counts).usedCoins
      ∧ (showStelno t counts).remaining = (calculateFakelos t counts).remaining
      ∧ ∀ d, stelnoLeftoverCount counts
            ((showStelno t counts).usedBills ++ (showStelno t counts).usedCoins) d
          = leftoverCount counts (allocUsed t counts) d := by
  simp [showStelno, calculateFakelos, stelnoBillLoop_eq_billLoop,
    stelnoCoinLoop_eq_coinLoop, stelnoLeftoverCount, leftoverCount, allocUsed]

/-- The ordered `allFields` list of `script.js`: bills, coins, then the
other channels. -/
def allFields : List FieldId :=
  [.bill100, .bill50, .bill20, .bill10, .bill5,
   .coin2, .coin1, .coin05, .coin02, .coin01, .coin005,
   .kermata, .wolt, .efood, .mypos, .eurobank]

/-- Parsed numeric state of the inputs: one value per fixed field
(`parseFloat(...) || 0`, so 0 for empty or non-numeric) and the list of
exoda amounts. -/
structure Inputs where
  value : FieldId → ℚ
  exoda : List ℚ

/-- Embedding of `getTotalExoda` (lines 257-267): the sum of all exoda amounts. -/
def getTotalExoda (inp : Inputs) : ℚ := inp.exoda.sum

/-- The derived totals computed by `updateTotals`, including the internal
`deductionsTotal` accumulator. -/
structure Totals where
  grandTotal : ℚ
  totalExoda : ℚ
  deductionsTotal : ℚ
  cashTotal : ℚ
  cashLimTotal : ℚ
  incomeLimTotal : ℚ

/-- Embedding of `updateTotals` (lines 371-417): sum every field (denomination fields
multiplied by their face value in count mode), add the exoda total, start
the deductions at the fixed 1000 plus the exoda total and add the four
deduction channels, then derive cash, cash-limited and income-limited
totals. -/
def updateTotals (countMode : Bool) (inp : Inputs) : Totals :=
  let fieldsTotal := allFields.foldl (fun acc id =>
    match denominationValue id with
    | some d => if countMode then acc + inp.value id * d else acc + inp.value id
    | none => acc + inp.value id) 0
  let totalExoda := getTotalExoda inp
  let grandTotal := fieldsTotal + totalExoda
  let deductionsTotal := [FieldId.wolt, .efood, .mypos, .eurobank].foldl
    (fun acc id => acc + inp.value id) (1000 + totalExoda)
  let cashTotal := grandTotal - deductionsTotal
  let cashLimTotal := cashTotal + totalExoda
  let incomeLimTotal := cashTotal + totalExoda + inp.value .mypos + inp.value .eurobank
  ⟨grandTotal, totalExoda, deductionsTotal, cashTotal, cashLimTotal, incomeLimTotal⟩

/-- The all-empty session: every field parses to 0 and there is one empty
exoda list. -/
def zeroInputs : Inputs := ⟨fun _ => 0, []⟩

/-- C2: for every mode and every field assignment, the derived totals
satisfy `deductionsTotal = 1000 + totalExoda + wolt + efood + mypos +
eurobank` (channels taken at plain value regardless of mode),
`cashTotal = grandTotal - deductionsTotal` (which can go negative, as the
all-empty session shows, and is not clamped), `cashLimTotal = cashTotal +
totalExoda`, and `incomeLimTotal = cashTotal + totalExoda + mypos +
eurobank`. -/
theorem updateTotals_formulas :
    (∀ (m : Bool) (inp : Inputs),
      (updateTotals m inp).deductionsTotal
          = 1000 + (updateTotals m inp).totalExoda + inp.value .wolt
            + inp.value .efood + inp.value .mypos + inp.value .eurobank
        ∧ (updateTotals m inp).cashTotal
            = (updateTotals m inp).grandTotal - (updateTotals m inp).deductionsTotal
        ∧ (updateTotals m inp).cashLimTotal
            = (updateTotals m inp).cashTotal + (updateTotals m inp).totalExoda
        ∧ (updateTotals m inp).incomeLimTotal
            = (updateTotals m inp).cashTotal + (updateTotals m inp).totalExoda
              + inp.value .mypos + inp.value .eurobank)
      ∧ (updateTotals false zeroInputs).cashTotal < 0 := by
  constructor
  · intro m inp
    simp only [updateTotals, List.foldl_cons, List.foldl_nil]
    exact ⟨trivial, trivial, trivial, trivial⟩
  · simp only [updateTotals, zeroInputs, getTotalExoda, allFields,
      List.foldl_cons, List.foldl_nil, denominationValue, List.sum_nil]
    norm_num

lemma denominationValue_isTwentieth {id : FieldId} {d : ℚ}
    (h : denominationValue id = some d) : isTwentieth d := by
  cases id <;> simp only [denominationValue, Option.some.injEq] at h <;>
    first
      | exact Option.noConfusion h
      | subst h
  case bill100 => exact ⟨2000, by norm_num⟩
  case bill50 => exact ⟨1000, by norm_num⟩
  case bill20 => exact ⟨400, by norm_num⟩
  case bill10 => exact ⟨200, by norm_num⟩
  case bill5 => exact ⟨100, by norm_num⟩
  case coin2 => exact ⟨40, by norm_num⟩
  case coin1 => exact ⟨20, by norm_num⟩
  case coin05 => exact ⟨10, by norm_num⟩
  case coin02 => exact ⟨4, by norm_num⟩
  case coin01 => exact ⟨2, by norm_num⟩
  case coin005 => exact ⟨1, by norm_num⟩

/-- Per-field conversion performed by `toggleInputMode` (lines 155-172):
empty, non-numeric and zero values are left untouched; otherwise
Amount→Count stores `Math.round(val / denom)` and Count→Amount stores
`parseFloat((val * denom).toFixed(2))`. -/
def convertField (countMode : Bool) (denom : ℚ) (v : Option ℚ) : Option ℚ :=
  match v with
  | none => none
  | some val =>
    if val = 0 then some val
    else if countMode then some ((round (val / denom) : ℤ) : ℚ)
    else some (round2 (val * denom))

/-- C3: for every denomination and every integer count `c ≥ 0`, converting
Count→Amount (`round2 (c * faceValue)`) and then Amount→Count
(`round (value / faceValue)`) returns exactly `c`. -/
theorem count_amount_count_roundtrip (id : FieldId) (d : ℚ)
    (h : denominationValue id = some d) (c : ℕ) :
    convertField true d (convertField false d (some (c : ℚ))) = some (c : ℚ) := by
  obtain ⟨k, hk, hdk⟩ := denominationValue_isTwentieth h
  have hkq : (0 : ℚ) < (k : ℚ) := by exact_mod_cast hk
  have hd : 0 < d := by rw [hdk]; positivity
  rcases Nat.eq_zero_or_pos c with hc | hc
  · subst hc
    simp [convertField]
  · have hcq : (0 : ℚ) < (c : ℚ) := by exact_mod_cast hc
    have hcents : isCents ((c : ℚ) * d) :=
      ⟨(c : ℤ) * k * 5, by rw [hdk]; push_cast; ring⟩
    have h1 : convertField false d (some (c : ℚ)) = some ((c : ℚ) * d) := by
      simp only [convertField]
      rw [if_neg hcq.ne', if_neg (by simp), round2_eq_self hcents]
    rw [h1]
    have hne : (c : ℚ) * d ≠ 0 := by positivity
    simp only [convertField]
    rw [if_neg hne, if_pos trivial]
    rw [mul_div_assoc, div_self hd.ne', mul_one, round_natCast]
    norm_num

/-- Witness for C3 at denomination 0.20€ and count 7. -/
theorem count_amount_count_roundtrip_witness :
    convertField true (1/5) (convertField false (1/5) (some ((7 : ℕ) : ℚ)))
        = some ((7 : ℕ) : ℚ) :=
  count_amount_count_roundtrip .coin02 (1/5) rfl 7

/-- Truncation towards zero, as JavaScript applies when computing the
`%` remainder. -/
def rtrunc (q : ℚ) : ℤ := if 0 ≤ q then ⌊q⌋ else ⌈q⌉

/-- The JavaScript `%` remainder: `a - b * trunc(a / b)`; it takes the
sign of the dividend. -/
def jsRem (a b : ℚ) : ℚ := a - b * rtrunc (a / b)

/-- Embedding of `validateInput` (lines 335-368) on a parsed field value (`none` for an
empty input): empty is always valid; a denomination field in count mode
is valid iff the value is a non-negative integer; in amount mode iff
`value % denomination < 0.001` or `denomination - value % denomination <
0.001`; any other field is always valid. -/
def validateInput (countMode : Bool) (id : FieldId) (v : Option ℚ) : Bool :=
  match v with
  | none => true
  | some value =>
    match denominationValue id with
    | some denomination =>
      if countMode then decide (value.den = 1 ∧ 0 ≤ value)
      else
        decide (jsRem value denomination < 1/1000
          ∨ denomination - jsRem value denomination < 1/1000)
    | none => true

/-- Modelled from the spec wording of C5: the amount-mode validity
condition read as absolute distances: the remainder is within 0.001 of 0
or within 0.001 of the face value itself. -/
def specAmountValid (d v : ℚ) : Prop :=
  |jsRem v d| < 1/1000 ∨ |jsRem v d - d| < 1/1000

/-- Counterexample to C5: for the 2€ coin field in amount mode, the value
-1 has JavaScript remainder -1, which the code accepts (`-1 < 0.001`),
although -1 is neither within 0.001 of 0 nor within 0.001 of 2 — so
"valid iff the remainder is within 0.001 of 0 or of the face value" fails
for negative values. -/
theorem validateInput_distance_counterexample :
    validateInput false .coin2 (some (-1)) = true ∧ ¬ specAmountValid 2 (-1) := by
  have hceil : ⌈((-1 : ℚ) / 2)⌉ = 0 := by
    rw [Int.ceil_eq_iff]
    norm_num
  have hj : jsRem (-1) 2 = -1 := by
    unfold jsRem rtrunc
    rw [if_neg (by norm_num), hceil]
    norm_num
  constructor
  · simp only [validateInput, denominationValue, hj]
    norm_num
  · simp only [specAmountValid, hj]
    norm_num

lemma jsRem_nonneg_bounds {v d : ℚ} (hv : 0 ≤ v) (hd : 0 < d) :
    0 ≤ jsRem v d ∧ jsRem v d < d := by
  have h0 : 0 ≤ v / d := div_nonneg hv hd.le
  have hfl : rtrunc (v / d) = ⌊v / d⌋ := if_pos h0
  constructor
  · have h1 : ((⌊v / d⌋ : ℤ) : ℚ) ≤ v / d := Int.floor_le _
    have h2 : d * ((⌊v / d⌋ : ℤ) : ℚ) ≤ d * (v / d) :=
      mul_le_mul_of_nonneg_left h1 hd.le
    have h3 : d * (v / d) = v := mul_div_cancel₀ v hd.ne'
    unfold jsRem
    rw [hfl]
    linarith
  · have h1 : v / d < ((⌊v / d⌋ : ℤ) : ℚ) + 1 := Int.lt_floor_add_one _
    have h2 : d * (v / d) < d * (((⌊v / d⌋ : ℤ) : ℚ) + 1) := by
      exact mul_lt_mul_of_pos_left h1 hd
    have h3 : d * (v / d) = v := mul_div_cancel₀ v hd.ne'
    unfold jsRem
    rw [hfl]
    nlinarith

/-- C5 amended: empty input is always valid; a denomination field in
count mode is valid iff the value is a non-negative integer; in amount
mode the code accepts exactly the values whose JavaScript remainder `r =
value % face` satisfies `r < 0.001` or `face - r < 0.001` — for
non-negative values this coincides with "within 0.001 of 0 or within
0.001 of the face value", but every negative value is accepted as well
because its remainder is negative; non-denomination fields are always
valid; and 0.19999 on the 0.20€ field in amount mode is valid. -/
theorem validateInput_characterization :
    (∀ (m : Bool) (id : FieldId), validateInput m id none = true)
      ∧ (∀ (id : FieldId) (d v : ℚ), denominationValue id = some d →
          ((validateInput true id (some v) = true ↔ ∃ n : ℕ, v = (n : ℚ))
            ∧ (validateInput false id (some v) = true ↔
                jsRem v d < 1/1000 ∨ d - jsRem v d < 1/1000)
            ∧ (0 ≤ v → (validateInput false id (some v) = true ↔ specAmountValid d v))))
      ∧ (∀ (m : Bool) (id : FieldId) (v : ℚ), denominationValue id = none →
          validateInput m id (some v) = true)
      ∧ validateInput false .coin02 (some (19999/100000)) = true := by
  refine ⟨fun m id => rfl, ?_, ?_, ?_⟩
  · intro id d v h
    obtain ⟨k, hk, hdk⟩ := denominationValue_isTwentieth h
    have hkq : (0 : ℚ) < (k : ℚ) := by exact_mod_cast hk
    have hd : 0 < d := by rw [hdk]; positivity
    refine ⟨?_, ?_, ?_⟩
    · simp only [validateInput, h, if_pos trivial, decide_eq_true_eq]
      constructor
      · rintro ⟨hden, hnn⟩
        refine ⟨v.num.toNat, ?_⟩
        have hnum : 0 ≤ v.num := Rat.num_nonneg.mpr hnn
        have hv : ((v.num : ℤ) : ℚ) = v := by
          conv_rhs => rw [← Rat.num_div_den v]
          rw [hden]
          norm_num
        rw [← hv]
        exact_mod_cast (Int.toNat_of_nonneg hnum).symm
      · rintro ⟨n, rfl⟩
        exact ⟨Rat.den_natCast n, by positivity⟩
    · simp only [validateInput, h, decide_eq_true_eq]
      rw [if_neg (by simp)]
      simp only [decide_eq_true_eq]
    · intro hv
      obtain ⟨hr0, hrd⟩ := jsRem_nonneg_bounds hv hd
      simp only [validateInput, h, decide_eq_true_eq]
      rw [if_neg (by simp)]
      simp only [decide_eq_true_eq]
      unfold specAmountValid
      rw [abs_of_nonneg hr0, abs_of_nonpos (by linarith)]
      constructor
      · rintro (h1 | h1)
        · exact Or.inl h1
        · exact Or.inr (by linarith)
      · rintro (h1 | h1)
        · exact Or.inl h1
        · exact Or.inr (by linarith)
  · intro m id v h
    simp only [validateInput, h]
  · norm_num [validateInput, denominationValue, jsRem, rtrunc]

/-- Witness for C5 amended, instantiating the denomination-field clause
at the 2€ coin field with value 3. -/
theorem validateInput_characterization_witness :
    (validateInput true .coin2 (some (3 : ℚ)) = true ↔ ∃ n : ℕ, (3 : ℚ) = (n : ℚ))
      ∧ validateInput false .coin02 (some (19999/100000)) = true :=
  ⟨(validateInput_characterization.2.1 .coin2 2 (3 : ℚ) rfl).1,
    validateInput_characterization.2.2.2⟩

/-- State of the dynamic exoda entry list: the current entry count and
the value of each numbered input field (`none` when the field does not
exist or is empty). -/
structure ExodaState where
  count : ℕ
  vals : ℕ → Option String

/-- Embedding of `createExodaFields` (lines 188-254, same logic in the unnamed
variant lines 202-291): save the non-empty values of the current fields
`1..count`, clear the container and the cached inputs (destroying every
current field), then create fields `1..newCount`, restoring a saved value
whenever one was saved for that index. -/
def createExodaFields (st : ExodaState) (newCount : ℕ) : ExodaState :=
  let existingValues : ℕ → Option String := fun i =>
    if 1 ≤ i ∧ i ≤ st.count then st.vals i else none
  { count := newCount
    vals := fun i => if 1 ≤ i ∧ i ≤ newCount then existingValues i else none }

/-- A session with three exoda entries filled in. -/
def threeEntries : ExodaState :=
  ⟨3, fun i => if i = 1 then some "a" else if i = 2 then some "b"
    else if i = 3 then some "c" else none⟩

/-- Counterexample to C9: shrinking the exoda list from 3 entries to 1
and growing it back to 3 loses the value at index 2 (and likewise 3): the
contraction destroys fields 2 and 3 and their values are not retained
anywhere, so the expansion recreates them empty. -/
theorem createExodaFields_shrink_data_loss :
    threeEntries.vals 2 = some "b"
      ∧ (createExodaFields (createExodaFields threeEntries 1) 3).vals 2 = none := by
  constructor
  · rfl
  · decide

/-- C9 amended: a value is preserved by a single resize exactly when its
index is retained, i.e. lies within both the old and the new count
(values above the new count are discarded, fields above the old count are
created empty); consequently the 3→1→3 cycle keeps only index 1 — every
index other than 1 comes back empty. -/
theorem createExodaFields_resize (st : ExodaState) (c i : ℕ) (h1 : 1 ≤ i) :
    (i ≤ c → i ≤ st.count → (createExodaFields st c).vals i = st.vals i)
      ∧ (c < i → (createExodaFields st c).vals i = none)
      ∧ ((createExodaFields (createExodaFields st 1) 3).vals i
          = if i = 1 ∧ 1 ≤ st.count then st.vals 1 else none) := by
  refine ⟨?_, ?_, ?_⟩
  · intro h2 h3
    simp only [createExodaFields]
    rw [if_pos ⟨h1, h2⟩, if_pos ⟨h1, h3⟩]
  · intro h2
    simp only [createExodaFields]
    rw [if_neg (by omega)]
  · simp only [createExodaFields]
    by_cases hi : i = 1 ∧ 1 ≤ st.count
    · obtain ⟨rfl, hc⟩ := hi
      rw [if_pos ⟨le_refl 1, by omega⟩, if_pos ⟨le_refl 1, le_refl 1⟩,
        if_pos ⟨le_refl 1, le_refl 1⟩, if_pos ⟨le_refl 1, hc⟩,
        if_pos ⟨rfl, hc⟩]
    · rw [if_neg hi]
      by_cases h3 : i ≤ 3
      · rw [if_pos ⟨h1, h3⟩]
        by_cases h5 : i = 1
        · subst h5
          have h6 : ¬ 1 ≤ st.count := fun hc => hi ⟨rfl, hc⟩
          rw [if_pos ⟨le_refl 1, le_refl 1⟩, if_pos ⟨le_refl 1, le_refl 1⟩,
            if_neg (fun hc => h6 hc.2)]
        · rw [if_neg (by omega)]
      · rw [if_neg (by omega)]

/-- Witness for C9 amended at the three-entry session, index 1. -/
theorem createExodaFields_resize_witness :
    (1 ≤ 1 → 1 ≤ threeEntries.count →
        (createExodaFields threeEntries 1).vals 1 = threeEntries.vals 1)
      ∧ (1 < 1 → (createExodaFields threeEntries 1).vals 1 = none)
      ∧ ((createExodaFields (createExodaFields threeEntries 1) 3).vals 1
          = if 1 = 1 ∧ 1 ≤ threeEntries.count then threeEntries.vals 1 else none) :=
  createExodaFields_resize threeEntries 1 1 (le_refl 1)

end TameioJoin

